import Mathlib

/-!
Verification development for the auction-monitor reconciliation core
(`scraper/megaleiloes_monitor.py` and `scraper/sodre_monitor.py`).

The Python sources are embedded shallowly:

* Python dicts become association lists with Python-dict semantics
  (`pyInsert` keeps the position of an existing key and appends new keys,
  matching insertion-order preservation of CPython dicts).
* `urllib.parse.urlparse` is modelled faithfully after CPython 3.11's
  `urlsplit`/`urlparse` (leading C0-control/space stripping, removal of
  tab/CR/LF, scheme detection, netloc split, IPv6-bracket-mismatch
  `ValueError` modelled as `none`, fragment split before query split,
  and `;params` splitting of the last path segment for schemes in
  `uses_params`).
* Currency values are modelled as rationals, timestamps as strings,
  nullable fields as `Option`.
-/

namespace Monitors

/-- Model of a CPython dict as an association list. `pyInsert m k v`
updates the value at an existing key in place (keeping its position, as
CPython dicts preserve first-insertion order of keys) and otherwise
appends the new binding at the end. -/
def pyInsert {K : Type} {V : Type} [DecidableEq K] : List (K × V) → K → V → List (K × V)
  | [], k, v => [(k, v)]
  | (k0, v0) :: t, k, v => if k0 = k then (k0, v) :: t else (k0, v0) :: pyInsert t k v

/-- Model of CPython `dict.get`: the value at the first (hence unique, for
dicts) occurrence of the key, or `none`. -/
def pyGet {K : Type} {V : Type} [DecidableEq K] : List (K × V) → K → Option V
  | [], _ => none
  | (k0, v0) :: t, k => if k0 = k then some v0 else pyGet t k

/-- Keys of a modelled dict, in insertion order. -/
def pyKeys {K : Type} {V : Type} (m : List (K × V)) : List K := m.map Prod.fst

/-- Values of a modelled dict, in key insertion order (CPython `dict.values()`). -/
def pyValues {K : Type} {V : Type} (m : List (K × V)) : List V := m.map Prod.snd

/-! Model of `urllib.parse` (CPython 3.11), the parts used by
`MegaLeiloesMonitor.normalize_link`. -/

/-- Whitespace-class test used by CPython `urlsplit`: WHATWG C0 control
characters and space (code points 0 through 32). -/
def isC0OrSpace (c : Char) : Bool := c.toNat ≤ 32

/-- Unsafe bytes CPython `urlsplit` removes from the URL: tab, CR, LF. -/
def isUnsafeByte (c : Char) : Bool := c = '\t' || c = '\r' || c = '\n'

/-- Characters allowed after the first character of a URL scheme
(CPython `scheme_chars`): ASCII letters, digits, plus, minus, dot. -/
def isSchemeChar (c : Char) : Bool := c.isAlphanum || c = '+' || c = '-' || c = '.'

/-- Preprocessing done by CPython `urlsplit` before parsing: strip leading
C0-control/space characters, then remove every tab, CR and LF. -/
def preprocess (l : List Char) : List Char :=
  (l.dropWhile isC0OrSpace).filter (fun c => !isUnsafeByte c)

/-- Split a character list at the first occurrence of `sep`, returning the
parts before and after it, or `none` when `sep` does not occur (models
Python `str.find` plus slicing, and `str.split(sep, 1)`). -/
def splitOnFirst (sep : Char) : List Char → Option (List Char × List Char)
  | [] => none
  | c :: rest =>
    if c = sep then some ([], rest)
    else
      match splitOnFirst sep rest with
      | none => none
      | some (a, b) => some (c :: a, b)

/-- Scheme detection of CPython `urlsplit`: if the URL has a colon at a
positive position, the first character is an ASCII letter and every
character before the colon is a scheme character, the scheme is the
lowercased prefix and the remainder follows the colon; otherwise no scheme
is split off. -/
def splitScheme (url : List Char) : List Char × List Char :=
  match splitOnFirst ':' url with
  | none => ([], url)
  | some (pre, post) =>
    match pre with
    | [] => ([], url)
    | c :: cs =>
      if c.toNat < 128 && c.isAlpha && (c :: cs).all isSchemeChar then
        ((c :: cs).map Char.toLower, post)
      else ([], url)

/-- Delimiters ending the netloc in CPython `_splitnetloc`. -/
def isNetlocDelim (c : Char) : Bool := c = '/' || c = '?' || c = '#'

/-- Netloc split of CPython `urlsplit`: when the remainder starts with two
slashes, the netloc runs up to the first of slash, question mark or hash;
otherwise the netloc is empty. -/
def splitNetloc (url : List Char) : List Char × List Char :=
  match url with
  | '/' :: '/' :: rest =>
    (rest.takeWhile (fun c => !isNetlocDelim c), rest.dropWhile (fun c => !isNetlocDelim c))
  | u => ([], u)

/-- Mismatched-square-bracket test on the netloc; CPython `urlsplit` raises
`ValueError("Invalid IPv6 URL")` exactly when it holds. -/
def bracketMismatch (netloc : List Char) : Bool :=
  (decide ('[' ∈ netloc) && !decide (']' ∈ netloc)) ||
    (decide (']' ∈ netloc) && !decide ('[' ∈ netloc))

/-- Fragment split: everything after the first hash (CPython splits the
fragment before the query). -/
def splitFragment (url : List Char) : List Char × List Char :=
  match splitOnFirst '#' url with
  | none => (url, [])
  | some (a, b) => (a, b)

/-- Query split: everything after the first question mark of the
fragment-free part. -/
def splitQuery (url : List Char) : List Char × List Char :=
  match splitOnFirst '?' url with
  | none => (url, [])
  | some (a, b) => (a, b)

/-- Result of `urlsplit`, mirroring CPython's `SplitResult` fields used here. -/
structure SplitResult where
  scheme : List Char
  netloc : List Char
  path : List Char
  query : List Char
  fragment : List Char
deriving DecidableEq

/-- Model of CPython 3.11 `urllib.parse.urlsplit` with default arguments.
`none` models the `ValueError("Invalid IPv6 URL")` raised on a netloc with
mismatched square brackets. -/
def urlsplit (url : List Char) : Option SplitResult :=
  if bracketMismatch (splitNetloc (splitScheme (preprocess url)).2).1 then none
  else
    some ⟨(splitScheme (preprocess url)).1,
      (splitNetloc (splitScheme (preprocess url)).2).1,
      (splitQuery (splitFragment (splitNetloc (splitScheme (preprocess url)).2).2).1).1,
      (splitQuery (splitFragment (splitNetloc (splitScheme (preprocess url)).2).2).1).2,
      (splitFragment (splitNetloc (splitScheme (preprocess url)).2).2).2⟩

/-- Schemes for which CPython `urlparse` splits `;params` off the path
(`urllib.parse.uses_params`). -/
def uses_params : List (List Char) :=
  ["", "ftp", "hdl", "prospero", "http", "imap", "https", "shttp", "rtsp",
    "rtspu", "sip", "sips", "mms", "sftp", "tel"].map String.data

/-- Model of CPython `urllib.parse._splitparams`: when the path contains a
slash, parameters are split at the first semicolon of the last path
segment (none if that segment has no semicolon); otherwise at the first
semicolon of the whole path. -/
def splitParams (url : List Char) : List Char × List Char :=
  if '/' ∈ url then
    match splitOnFirst ';' (url.reverse.takeWhile (fun c => c != '/')).reverse with
    | none => (url, [])
    | some (a, b) =>
      (url.take (url.length - (url.reverse.takeWhile (fun c => c != '/')).reverse.length) ++ a, b)
  else
    match splitOnFirst ';' url with
    | none => (url, [])
    | some (a, b) => (a, b)

/-- Result of `urlparse`, mirroring CPython's `ParseResult` fields used here. -/
structure ParseResult where
  scheme : List Char
  netloc : List Char
  path : List Char
  params : List Char
  query : List Char
  fragment : List Char
deriving DecidableEq

/-- Model of CPython 3.11 `urllib.parse.urlparse` with default arguments:
`urlsplit`, then `;params` splitting of the path for schemes in
`uses_params`. `none` models the `ValueError` raise. -/
def urlparse (url : List Char) : Option ParseResult :=
  match urlsplit url with
  | none => none
  | some s =>
    if s.scheme ∈ uses_params ∧ ';' ∈ s.path then
      some ⟨s.scheme, s.netloc, (splitParams s.path).1, (splitParams s.path).2, s.query, s.fragment⟩
    else
      some ⟨s.scheme, s.netloc, s.path, [], s.query, s.fragment⟩

/-- Model of Python `str.rstrip('/')`: remove every trailing slash. -/
def rstripSlash (l : List Char) : List Char :=
  (l.reverse.dropWhile (fun c => c = '/')).reverse

/-- Reassembly done by `normalize_link`: the Python f-string
interpolating parsed.scheme, the colon-slash-slash separator,
parsed.netloc and parsed.path, in that order. -/
def reassemble (p : ParseResult) : List Char :=
  p.scheme ++ ':' :: '/' :: '/' :: (p.netloc ++ p.path)

namespace MegaLeiloes

/-- Model of `MegaLeiloesMonitor.normalize_link` (megaleiloes_monitor.py,
lines 53-60): falsy input (`None` or the empty string, both modelled by
the empty string here) yields the empty string; otherwise the link is
parsed with `urlparse` and reassembled as scheme-colon-slash-slash-netloc-
path with all trailing slashes removed (`str.rstrip('/')`). `none` models
the `ValueError` that `urlparse` can raise. -/
def normalize_link (link : String) : Option String :=
  if link = "" then some ""
  else
    match urlparse link.data with
    | none => none
    | some p => some (String.mk (rstripSlash (reassemble p)))

/-- Row of the `vw_auctions_unified` view as selected by
`MegaLeiloesMonitor.load_database_items` (fields
`link,category,source,external_id,lot_number`); every field is nullable,
`item.get(...)` is modelled by `Option`. -/
structure MegaRow where
  link : Option String
  category : Option String
  source : Option String
  external_id : Option String
  lot_number : Option String
deriving DecidableEq

/-- Value stored in `self.db_items` by
`MegaLeiloesMonitor.load_database_items` (lines 86-91). -/
structure MegaTracked where
  category : Option String
  source : Option String
  external_id : Option String
  lot_number : Option String
deriving DecidableEq

/-- Construction of the tracked-item entry from a database row
(megaleiloes_monitor.py, lines 86-91). -/
def megaTrackedOf (r : MegaRow) : MegaTracked :=
  ⟨r.category, r.source, r.external_id, r.lot_number⟩

/-- Loop body of `MegaLeiloesMonitor.load_database_items` (lines 82-91)
over the already-fetched rows (the concatenation of all pages): a row with
a falsy link (absent or empty) is skipped, otherwise the row is inserted
under its normalized link. The `Bool` is the function's return value: a
`ValueError` escaping from `normalize_link` is caught by the surrounding
`except` which returns `False`, leaving the partially built index in
`self.db_items`. -/
def loadAux (idx : List (String × MegaTracked)) :
    List MegaRow → List (String × MegaTracked) × Bool
  | [] => (idx, true)
  | r :: rest =>
    match r.link with
    | none => loadAux idx rest
    | some l =>
      if l = "" then loadAux idx rest
      else
        match normalize_link l with
        | none => (idx, false)
        | some n => loadAux (pyInsert idx n (megaTrackedOf r)) rest

/-- Model of `MegaLeiloesMonitor.load_database_items` (lines 62-106),
applied to the rows returned by the paginated read. -/
def load_database_items (rows : List MegaRow) : List (String × MegaTracked) × Bool :=
  loadAux [] rows

/-- Scraped card data as produced by
`MegaLeiloesMonitor.extract_card_data` (lines 169-207). -/
structure ScrapedItem where
  link : String
  external_id : Option String
  current_value : ℚ
  has_bid : Bool
deriving DecidableEq

/-- History/update record built by
`MegaLeiloesMonitor.process_scraped_data` (lines 279-287). -/
structure MegaRecord where
  category : Option String
  source : Option String
  external_id : Option String
  lot_number : Option String
  has_bid : Bool
  current_value : ℚ
  captured_at : String
deriving DecidableEq

/-- Record construction of `process_scraped_data` (lines 279-287):
identity fields from the tracked database item, value fields from the
scraped observation, `captured_at` stamped with the current time (passed
here as the parameter `now`). -/
def megaRecordOf (now : String) (t : MegaTracked) (it : ScrapedItem) : MegaRecord :=
  ⟨t.category, t.source, t.external_id, t.lot_number, it.has_bid, it.current_value, now⟩

/-- Model of `MegaLeiloesMonitor.process_scraped_data` (lines 253-291):
normalize each scraped link, drop the observation when the normalized link
is not in `db_items`, otherwise append the merged record; `none` models a
`ValueError` escaping from `normalize_link` (there is no try/except in
this function). -/
def process_scraped_data (now : String) (db : List (String × MegaTracked)) :
    List ScrapedItem → Option (List MegaRecord)
  | [] => some []
  | it :: rest =>
    match normalize_link it.link with
    | none => none
    | some nl =>
      match pyGet db nl with
      | none => process_scraped_data now db rest
      | some t => (process_scraped_data now db rest).map (megaRecordOf now t it :: ·)

/-- Per-observation matching step of `process_scraped_data`, as a single
function: the merged record for one scraped item, or `none` when its
normalized link is absent from the index (a raising `normalize_link` is
also mapped to `none` here; the hypothesis of the theorem using this
excludes that case). -/
def megaMatch (now : String) (db : List (String × MegaTracked)) (it : ScrapedItem) :
    Option MegaRecord :=
  match normalize_link it.link with
  | none => none
  | some nl => (pyGet db nl).map (fun t => megaRecordOf now t it)

/-- Dedup key used by `MegaLeiloesMonitor.save_bid_history` (lines 358-363):
category, source, external id and the capture timestamp truncated to 19
characters (second precision). -/
def dedup_key (r : MegaRecord) : Option String × Option String × Option String × String :=
  (r.category, r.source, r.external_id, r.captured_at.take 19)

end MegaLeiloes

/-- Last record of the list whose key equals `k` (a Python dict built by
last-write-wins assignment holds exactly this value at `k`). -/
def lastWithKey {α K : Type} [DecidableEq K] (key : α → K) (k : K) (l : List α) : Option α :=
  l.foldl (fun acc r => if key r = k then some r else acc) none

/-- Dedup loop shared by both monitors' `save_bid_history`: fold the
records into a dict keyed by `key`, overwriting on collision. -/
def dedupFold {α K : Type} [DecidableEq K] (key : α → K) :
    List (K × α) → List α → List (K × α)
  | m, [] => m
  | m, r :: rest => dedupFold key (pyInsert m (key r) r) rest

/-- Deduplicated record list, in key-first-insertion order, as produced by
`list(unique_records.values())` in both monitors' `save_bid_history`. -/
def dedupRecords {α K : Type} [DecidableEq K] (key : α → K) (records : List α) : List α :=
  pyValues (dedupFold key [] records)

namespace MegaLeiloes

/-- Model of `MegaLeiloesMonitor.save_bid_history` (lines 345-377). The
history-store upsert transport is the parameter `upsert`, returning the
number of confirmed rows (`len(response.data)`) or an error modelling a
raised exception; the surrounding try/except turns any transport failure
into a return value of 0. An empty batch returns 0 without calling the
transport. -/
def save_bid_history (upsert : List MegaRecord → Except Unit Nat)
    (records : List MegaRecord) : Nat :=
  if records = [] then 0
  else
    match upsert (dedupRecords dedup_key records) with
    | Except.ok n => n
    | Except.error _ => 0

/-- Grouping by category done by `MegaLeiloesMonitor.update_base_tables`
(lines 305-311): a Python dict from category to the list of its records,
in first-appearance order. -/
def group_by_category (records : List MegaRecord) :
    List (Option String × List MegaRecord) :=
  records.foldl
    (fun m r =>
      match pyGet m r.category with
      | none => pyInsert m r.category [r]
      | some l => pyInsert m r.category (l ++ [r]))
    []

/-- Model of `MegaLeiloesMonitor.update_base_tables` (lines 293-343): each
record's per-category update is attempted independently; `upd` is the
per-record transport returning success or failure (a raised exception is
caught, counted as an error, and the loop continues). The return value is
the count of successful updates. -/
def update_base_tables (upd : MegaRecord → Bool) (records : List MegaRecord) : Nat :=
  if records = [] then 0
  else
    (group_by_category records).foldl (fun acc p => acc + p.2.countP (fun r => upd r)) 0

/-- Persistence phase of `MegaLeiloesMonitor.run` (lines 458-465): base
tables are updated first, then the history batch is written; the two
results are independent return values. -/
def run_persist (upd : MegaRecord → Bool) (upsert : List MegaRecord → Except Unit Nat)
    (records : List MegaRecord) : Nat × Nat :=
  (update_base_tables upd records, save_bid_history upsert records)

end MegaLeiloes

namespace Sodre

/-- Row of the `vw_auctions_unified` view as selected by
`SodreMonitor.load_database_items` (fields
`link,category,source,external_id,lot_number,bid_actual,lot_visits`). -/
structure SodreRow where
  link : Option String
  category : Option String
  source : Option String
  external_id : Option String
  lot_number : Option String
  bid_actual : Option ℚ
  lot_visits : Option Int
deriving DecidableEq

/-- Value stored in `self.db_items` by `SodreMonitor.load_database_items`
(sodre_monitor.py, lines 96-103). -/
structure SodreTracked where
  category : Option String
  source : Option String
  external_id : Option String
  lot_number : Option String
  prev_bid : ℚ
  prev_visits : Int
deriving DecidableEq

/-- Construction of the tracked-item entry from a database row (lines
96-103); `float(item.get(f) or 0)` maps an absent value to 0. -/
def sodreTrackedOf (r : SodreRow) : SodreTracked :=
  ⟨r.category, r.source, r.external_id, r.lot_number,
    r.bid_actual.getD 0, r.lot_visits.getD 0⟩

/-- Loop body of `SodreMonitor.load_database_items` (lines 93-103) over
the already-fetched rows: a row with a falsy link is skipped, otherwise
the row is inserted under its RAW link (no normalization exists in this
monitor). -/
def loadAux (idx : List (String × SodreTracked)) :
    List SodreRow → List (String × SodreTracked)
  | [] => idx
  | r :: rest =>
    match r.link with
    | none => loadAux idx rest
    | some l =>
      if l = "" then loadAux idx rest
      else loadAux (pyInsert idx l (sodreTrackedOf r)) rest

/-- Model of `SodreMonitor.load_database_items` (lines 70-118), applied to
the rows returned by the paginated read. -/
def load_database_items (rows : List SodreRow) : List (String × SodreTracked) :=
  loadAux [] rows

/-- Lot data captured from the Sodré API (`self.api_lots` values), the
fields read by `cross_reference_data` (lines 273-275). -/
structure ApiLot where
  bid_actual : Option ℚ
  bid_has_bid : Option Bool
  lot_visits : Option Int
deriving DecidableEq

/-- Thresholds for hot-item detection (sodre_monitor.py, lines 42-43). -/
def HOT_ITEM_THRESHOLD_VALUE : ℚ := 1000

/-- Percent threshold for hot-item detection (sodre_monitor.py, line 43). -/
def HOT_ITEM_THRESHOLD_PERCENT : ℚ := 20

/-- Absolute bid increase, `current_bid - prev_bid`
(sodre_monitor.py, line 279). -/
def bid_increase (prev curr : ℚ) : ℚ := curr - prev

/-- Percentage bid increase with the division-by-zero guard,
`(bid_increase / prev_bid * 100) if prev_bid > 0 else 0`
(sodre_monitor.py, line 280). -/
def bid_increase_pct (prev curr : ℚ) : ℚ :=
  if prev > 0 then bid_increase prev curr / prev * 100 else 0

/-- Hot-item rule of `cross_reference_data` (sodre_monitor.py, lines
304-307): the absolute increase reaches the currency threshold or the
percentage increase reaches the percent threshold. -/
def is_hot (prev curr : ℚ) : Bool :=
  decide (bid_increase prev curr ≥ HOT_ITEM_THRESHOLD_VALUE) ||
    decide (bid_increase_pct prev curr ≥ HOT_ITEM_THRESHOLD_PERCENT)

/-- Matched record built by `SodreMonitor.cross_reference_data` (lines
286-299): identity fields from the tracked database item, value fields
from the captured API lot, plus the analysis-only metadata fields
(prefixed with an underscore in the source). -/
structure SodreRecord where
  category : Option String
  source : Option String
  external_id : Option String
  lot_number : Option String
  bid_actual : ℚ
  bid_has_bid : Bool
  lot_visits : Int
  captured_at : String
  meta_bid_increase : ℚ
  meta_bid_increase_pct : ℚ
  meta_visit_increase : Int
deriving DecidableEq

/-- Record construction of `cross_reference_data` (lines 272-299):
`float(api_data.get('bid_actual') or 0)`, `api_data.get('bid_has_bid',
False)` and `int(api_data.get('lot_visits') or 0)` become `Option.getD`. -/
def sodreRecordOf (now : String) (t : SodreTracked) (lot : ApiLot) : SodreRecord :=
  ⟨t.category, t.source, t.external_id, t.lot_number,
    lot.bid_actual.getD 0, lot.bid_has_bid.getD false, lot.lot_visits.getD 0, now,
    bid_increase t.prev_bid (lot.bid_actual.getD 0),
    bid_increase_pct t.prev_bid (lot.bid_actual.getD 0),
    lot.lot_visits.getD 0 - t.prev_visits⟩

/-- Model of the matching loop of `SodreMonitor.cross_reference_data`
(lines 266-301): the iteration runs over the tracked-item index
`self.db_items` (not over the captured observations); an index entry with
no captured lot under its raw link is skipped, otherwise one merged
record is appended. The returned sequence is in index order. -/
def cross_reference_data (now : String) (api : List (String × ApiLot)) :
    List (String × SodreTracked) → List SodreRecord
  | [] => []
  | (link, t) :: rest =>
    match pyGet api link with
    | none => cross_reference_data now api rest
    | some lot => sodreRecordOf now t lot :: cross_reference_data now api rest

/-- Per-index-entry matching step of `cross_reference_data`, as a single
function: the merged record for one tracked item, or `none` when no
captured API lot exists under its raw link. -/
def sodreMatch (now : String) (api : List (String × ApiLot))
    (p : String × SodreTracked) : Option SodreRecord :=
  (pyGet api p.1).map (fun lot => sodreRecordOf now p.2 lot)

/-- History row after `save_bid_history` removes the metadata keys
beginning with an underscore (sodre_monitor.py, lines 414-418). -/
structure SodreClean where
  category : Option String
  source : Option String
  external_id : Option String
  lot_number : Option String
  bid_actual : ℚ
  bid_has_bid : Bool
  lot_visits : Int
  captured_at : String
deriving DecidableEq

/-- Metadata removal of `save_bid_history` (lines 414-418). -/
def cleanRecord (r : SodreRecord) : SodreClean :=
  ⟨r.category, r.source, r.external_id, r.lot_number,
    r.bid_actual, r.bid_has_bid, r.lot_visits, r.captured_at⟩

/-- Dedup key used by `SodreMonitor.save_bid_history` (lines 421-429):
category, source, external id and the capture timestamp truncated to 19
characters (second precision). -/
def dedup_key (c : SodreClean) : Option String × Option String × Option String × String :=
  (c.category, c.source, c.external_id, c.captured_at.take 19)

/-- Model of `SodreMonitor.save_bid_history` (lines 400-443): metadata
removal, dedup, then one batch upsert; the try/except turns any transport
failure into a return value of 0, and an empty batch returns 0 without
calling the transport. -/
def save_bid_history (upsert : List SodreClean → Except Unit Nat)
    (records : List SodreRecord) : Nat :=
  if records = [] then 0
  else
    match upsert (dedupRecords dedup_key (records.map cleanRecord)) with
    | Except.ok n => n
    | Except.error _ => 0

end Sodre

/-! Helper lemmas about the Python-dict model. -/

theorem pyGet_pyInsert {K V : Type} [DecidableEq K] (m : List (K × V)) (k k' : K) (v : V) :
    pyGet (pyInsert m k v) k' = if k' = k then some v else pyGet m k' := by
  induction m with
  | nil =>
    simp only [pyInsert, pyGet]
    by_cases h : k = k'
    · subst h; simp
    · rw [if_neg h, if_neg (fun hh => h hh.symm)]
  | cons p t ih =>
    obtain ⟨k0, v0⟩ := p
    simp only [pyInsert]
    by_cases h0 : k0 = k
    · subst h0
      simp only [if_pos rfl, pyGet]
      by_cases h : k0 = k'
      · subst h; simp
      · rw [if_neg h, if_neg (fun hh => h hh.symm), if_neg h]
    · rw [if_neg h0]
      simp only [pyGet, ih]
      by_cases h : k0 = k'
      · subst h
        rw [if_pos rfl, if_neg h0, if_pos rfl]
      · rw [if_neg h]
        by_cases hk : k' = k
        · rw [if_pos hk, if_pos hk]
        · rw [if_neg hk, if_neg hk, if_neg h]

theorem pyKeys_pyInsert {K V : Type} [DecidableEq K] (m : List (K × V)) (k : K) (v : V) :
    pyKeys (pyInsert m k v) = if k ∈ pyKeys m then pyKeys m else pyKeys m ++ [k] := by
  induction m with
  | nil => simp [pyInsert, pyKeys]
  | cons p t ih =>
    obtain ⟨k0, v0⟩ := p
    simp only [pyInsert]
    by_cases h0 : k0 = k
    · subst h0
      simp [pyKeys]
    · rw [if_neg h0]
      simp only [pyKeys, List.map_cons] at ih ⊢
      rw [ih]
      by_cases hmem : k ∈ List.map Prod.fst t
      · rw [if_pos hmem, if_pos (List.mem_cons_of_mem _ hmem)]
      · rw [if_neg hmem,
          if_neg (fun hc => (List.mem_cons.mp hc).elim (fun h1 => h0 h1.symm) hmem),
          List.cons_append]

theorem mem_pyKeys_pyInsert {K V : Type} [DecidableEq K] {m : List (K × V)} {k k' : K}
    {v : V} (h : k' ∈ pyKeys (pyInsert m k v)) : k' ∈ pyKeys m ∨ k' = k := by
  rw [pyKeys_pyInsert] at h
  by_cases hmem : k ∈ pyKeys m
  · rw [if_pos hmem] at h; exact Or.inl h
  · rw [if_neg hmem] at h
    rcases List.mem_append.mp h with h1 | h1
    · exact Or.inl h1
    · exact Or.inr (List.mem_singleton.mp h1)

theorem nodup_pyKeys_pyInsert {K V : Type} [DecidableEq K] {m : List (K × V)} (k : K)
    (v : V) (h : (pyKeys m).Nodup) : (pyKeys (pyInsert m k v)).Nodup := by
  rw [pyKeys_pyInsert]
  by_cases hmem : k ∈ pyKeys m
  · rw [if_pos hmem]; exact h
  · rw [if_neg hmem]
    refine List.Nodup.append h (List.nodup_singleton k) ?_
    intro a ha hb
    rw [List.mem_singleton.mp hb] at ha
    exact hmem ha

theorem pyGet_eq_some_mem {K V : Type} [DecidableEq K] {m : List (K × V)} {k : K} {v : V}
    (h : pyGet m k = some v) : (k, v) ∈ m := by
  induction m with
  | nil => simp [pyGet] at h
  | cons p t ih =>
    obtain ⟨k0, v0⟩ := p
    simp only [pyGet] at h
    by_cases h0 : k0 = k
    · rw [if_pos h0] at h
      subst h0
      injection h with h
      subst h
      exact List.mem_cons_self _ _
    · rw [if_neg h0] at h
      exact List.mem_cons_of_mem _ (ih h)

theorem mem_pyValues_of_pyGet {K V : Type} [DecidableEq K] {m : List (K × V)} {k : K}
    {v : V} (h : pyGet m k = some v) : v ∈ pyValues m := by
  have hm := pyGet_eq_some_mem h
  exact List.mem_map.mpr ⟨(k, v), hm, rfl⟩

theorem pyGet_of_mem_nodup {K V : Type} [DecidableEq K] {m : List (K × V)} {k : K} {v : V}
    (hmem : (k, v) ∈ m) (hnd : (pyKeys m).Nodup) : pyGet m k = some v := by
  induction m with
  | nil => simp at hmem
  | cons p t ih =>
    obtain ⟨k0, v0⟩ := p
    rcases List.mem_cons.mp hmem with h1 | h1
    · injection h1 with h1a h1b
      simp [pyGet, h1a.symm, h1b]
    · have hk0 : k0 ≠ k := by
        intro hh
        subst hh
        have : k0 ∈ pyKeys t := List.mem_map.mpr ⟨(k0, v), h1, rfl⟩
        exact (List.nodup_cons.mp hnd).1 this
      simp only [pyGet, if_neg hk0]
      exact ih h1 (List.nodup_cons.mp hnd).2

/-! Helper lemmas about the dedup fold. -/

theorem foldl_lastWithKey {α K : Type} [DecidableEq K] (key : α → K) (k : K)
    (l : List α) (init : Option α) :
    l.foldl (fun acc r => if key r = k then some r else acc) init =
      match lastWithKey key k l with
      | some r => some r
      | none => init := by
  induction l generalizing init with
  | nil => simp [lastWithKey]
  | cons x xs ih =>
    simp only [List.foldl_cons, lastWithKey] at ih ⊢
    rw [ih, ih (if key x = k then some x else none)]
    cases hx : xs.foldl (fun acc r => if key r = k then some r else acc) none with
    | none => by_cases hk : key x = k <;> simp [hk]
    | some r => simp

theorem lastWithKey_cons {α K : Type} [DecidableEq K] (key : α → K) (k : K) (x : α)
    (xs : List α) :
    lastWithKey key k (x :: xs) =
      match lastWithKey key k xs with
      | some r => some r
      | none => if key x = k then some x else none := by
  simp only [lastWithKey, List.foldl_cons]
  rw [foldl_lastWithKey]
  rfl

theorem lastWithKey_some {α K : Type} [DecidableEq K] (key : α → K) (k : K) :
    ∀ (l : List α) (y : α), lastWithKey key k l = some y → key y = k ∧ y ∈ l := by
  intro l
  induction l with
  | nil => intro y h; simp [lastWithKey] at h
  | cons a t ih =>
    intro y h
    rw [lastWithKey_cons] at h
    cases ht : lastWithKey key k t with
    | some r =>
      rw [ht] at h
      injection h with h
      obtain ⟨h1, h2⟩ := ih r ht
      exact ⟨h ▸ h1, List.mem_cons_of_mem _ (h ▸ h2)⟩
    | none =>
      rw [ht] at h
      by_cases hk : key a = k
      · rw [if_pos hk] at h
        injection h with h
        subst h
        exact ⟨hk, List.mem_cons_self _ _⟩
      · rw [if_neg hk] at h
        cases h

theorem lastWithKey_isSome {α K : Type} [DecidableEq K] (key : α → K) {x : α}
    {l : List α} (hx : x ∈ l) : ∃ y, lastWithKey key (key x) l = some y := by
  induction l with
  | nil => simp at hx
  | cons a t ih =>
    rw [lastWithKey_cons]
    cases ht : lastWithKey key (key x) t with
    | some r => exact ⟨r, rfl⟩
    | none =>
      rcases List.mem_cons.mp hx with h1 | h1
      · subst h1
        exact ⟨x, by simp⟩
      · obtain ⟨y, hy⟩ := ih h1
        rw [hy] at ht
        cases ht

theorem pyGet_dedupFold {α K : Type} [DecidableEq K] (key : α → K) (k : K) :
    ∀ (l : List α) (m : List (K × α)),
    pyGet (dedupFold key m l) k =
      match lastWithKey key k l with
      | some r => some r
      | none => pyGet m k := by
  intro l
  induction l with
  | nil => intro m; simp [dedupFold, lastWithKey]
  | cons r rest ih =>
    intro m
    simp only [dedupFold]
    rw [ih, lastWithKey_cons]
    cases ht : lastWithKey key k rest with
    | some y => rfl
    | none =>
      by_cases hk : key r = k
      · simp [pyGet_pyInsert, hk]
      · simp [pyGet_pyInsert, hk, Ne.symm hk]

theorem pyInsert_pairs {α K : Type} [DecidableEq K] (key : α → K) (v : α) :
    ∀ (m : List (K × α)), (∀ p ∈ m, p.1 = key p.2) →
      ∀ p ∈ pyInsert m (key v) v, p.1 = key p.2 := by
  intro m
  induction m with
  | nil =>
    intro _ p hp
    simp only [pyInsert, List.mem_singleton] at hp
    subst hp
    rfl
  | cons q t ih =>
    obtain ⟨k0, v0⟩ := q
    intro hm p hp
    simp only [pyInsert] at hp
    by_cases h0 : k0 = key v
    · rw [if_pos h0] at hp
      rcases List.mem_cons.mp hp with h1 | h1
      · subst h1; exact h0
      · exact hm p (List.mem_cons_of_mem _ h1)
    · rw [if_neg h0] at hp
      rcases List.mem_cons.mp hp with h1 | h1
      · subst h1; exact hm _ (List.mem_cons_self _ _)
      · exact ih (fun q hq => hm q (List.mem_cons_of_mem _ hq)) p h1

theorem dedupFold_pairs {α K : Type} [DecidableEq K] (key : α → K) :
    ∀ (l : List α) (m : List (K × α)), (∀ p ∈ m, p.1 = key p.2) →
      ∀ p ∈ dedupFold key m l, p.1 = key p.2 := by
  intro l
  induction l with
  | nil =>
    intro m hm
    simpa [dedupFold] using hm
  | cons r rest ih =>
    intro m hm
    simp only [dedupFold]
    exact ih _ (pyInsert_pairs key r m hm)

theorem dedupFold_nodup {α K : Type} [DecidableEq K] (key : α → K) :
    ∀ (l : List α) (m : List (K × α)), (pyKeys m).Nodup →
      (pyKeys (dedupFold key m l)).Nodup := by
  intro l
  induction l with
  | nil => intro m hm; simpa [dedupFold] using hm
  | cons r rest ih =>
    intro m hm
    simp only [dedupFold]
    exact ih _ (nodup_pyKeys_pyInsert _ _ hm)

theorem mem_dedupRecords_last {α K : Type} [DecidableEq K] (key : α → K) {l : List α}
    {r : α} (h : r ∈ dedupRecords key l) : lastWithKey key (key r) l = some r := by
  obtain ⟨⟨k, r0⟩, hmem, hr⟩ := List.mem_map.mp h
  cases hr
  have hk : k = key r0 := dedupFold_pairs key l [] (by simp) _ hmem
  have hnd : (pyKeys (dedupFold key ([] : List (K × α)) l)).Nodup :=
    dedupFold_nodup key l [] (by simp [pyKeys])
  have hget : pyGet (dedupFold key ([] : List (K × α)) l) k = some r0 :=
    pyGet_of_mem_nodup hmem hnd
  rw [hk] at hget
  have hchar := pyGet_dedupFold key (key r0) l []
  rw [hget] at hchar
  cases hl : lastWithKey key (key r0) l with
  | some y =>
    rw [hl] at hchar
    injection hchar with hchar
    rw [hchar]
  | none =>
    rw [hl] at hchar
    simp [pyGet] at hchar

theorem dedupRecords_covers {α K : Type} [DecidableEq K] (key : α → K) {l : List α}
    {x : α} (hx : x ∈ l) : ∃ y ∈ dedupRecords key l, key y = key x := by
  obtain ⟨y, hy⟩ := lastWithKey_isSome key hx
  obtain ⟨hk, _⟩ := lastWithKey_some key (key x) l y hy
  have hget : pyGet (dedupFold key ([] : List (K × α)) l) (key x) = some y := by
    rw [pyGet_dedupFold, hy]
  exact ⟨y, mem_pyValues_of_pyGet hget, hk⟩

theorem dedupRecords_keys_nodup {α K : Type} [DecidableEq K] (key : α → K)
    (l : List α) : ((dedupRecords key l).map key).Nodup := by
  have hpairs := dedupFold_pairs key l [] (by simp)
  have hnd := dedupFold_nodup key l ([] : List (K × α)) (by simp [pyKeys])
  have hmaps : (pyValues (dedupFold key ([] : List (K × α)) l)).map key =
      pyKeys (dedupFold key ([] : List (K × α)) l) := by
    simp only [pyValues, pyKeys, List.map_map]
    exact List.map_congr_left (fun p hp => (hpairs p hp).symm)
  simpa [dedupRecords, hmaps] using hnd

theorem pyInsert_idem {K V : Type} [DecidableEq K] (k : K) (v : V) :
    ∀ (m : List (K × V)), pyInsert (pyInsert m k v) k v = pyInsert m k v := by
  intro m
  induction m with
  | nil => simp [pyInsert]
  | cons q t ih =>
    obtain ⟨k0, v0⟩ := q
    simp only [pyInsert]
    by_cases h0 : k0 = k
    · rw [if_pos h0]
      simp [pyInsert, h0]
    · rw [if_neg h0]
      simp [pyInsert, h0, ih]

theorem dedupRecords_idem {α K : Type} [DecidableEq K] (key : α → K) (r : α)
    (l : List α) : dedupRecords key (r :: r :: l) = dedupRecords key (r :: l) := by
  simp only [dedupRecords, dedupFold]
  rw [pyInsert_idem]

/-! Helper lemmas about `rstripSlash` and the urlparse model. -/

theorem rstripSlash_append_slash (l : List Char) :
    rstripSlash (l ++ ['/']) = rstripSlash l := by
  simp [rstripSlash, List.reverse_append]

theorem mem_dropWhile_of_mem {p : Char → Bool} :
    ∀ {l : List Char} {c : Char}, c ∈ l → p c = false → c ∈ l.dropWhile p := by
  intro l
  induction l with
  | nil => intro c hc _; simp at hc
  | cons a t ih =>
    intro c hc hp
    by_cases ha : p a
    · rcases List.mem_cons.mp hc with h1 | h1
      · subst h1; rw [ha] at hp; cases hp
      · simpa [List.dropWhile_cons, ha] using ih h1 hp
    · simpa [List.dropWhile_cons, ha] using hc

theorem mem_rstripSlash {c : Char} {l : List Char} (hc : c ∈ l) (hne : c ≠ '/') :
    c ∈ rstripSlash l := by
  rw [rstripSlash, List.mem_reverse]
  exact mem_dropWhile_of_mem (List.mem_reverse.mpr hc) (by simp [hne])

theorem dropWhile_dropWhile_self {p : Char → Bool} (l : List Char) :
    (l.dropWhile p).dropWhile p = l.dropWhile p := by
  induction l with
  | nil => simp
  | cons a t ih =>
    by_cases h : p a
    · simp [List.dropWhile_cons, h, ih]
    · simp [List.dropWhile_cons, h]

theorem rstripSlash_idem (l : List Char) :
    rstripSlash (rstripSlash l) = rstripSlash l := by
  simp only [rstripSlash, List.reverse_reverse]
  rw [dropWhile_dropWhile_self]

theorem splitOnFirst_eq {sep : Char} :
    ∀ {l a b : List Char}, splitOnFirst sep l = some (a, b) → l = a ++ sep :: b := by
  intro l
  induction l with
  | nil => intro a b h; simp [splitOnFirst] at h
  | cons c rest ih =>
    intro a b h
    by_cases hc : c = sep
    · simp only [splitOnFirst, if_pos hc] at h
      injection h with h
      injection h with h1 h2
      subst h1
      subst h2
      simp [hc]
    · simp only [splitOnFirst, if_neg hc] at h
      cases hm : splitOnFirst sep rest with
      | none => rw [hm] at h; cases h
      | some ab =>
        obtain ⟨a0, b0⟩ := ab
        rw [hm] at h
        injection h with h
        injection h with h1 h2
        subst h1
        subst h2
        simp [ih hm]

theorem splitScheme_snd_sublist (u : List Char) : (splitScheme u).2.Sublist u := by
  unfold splitScheme
  cases hm : splitOnFirst ':' u with
  | none => exact List.Sublist.refl u
  | some ab =>
    obtain ⟨pre, post⟩ := ab
    cases pre with
    | nil => exact List.Sublist.refl u
    | cons c0 cs =>
      dsimp only
      by_cases hcond : (c0.toNat < 128 && c0.isAlpha && (c0 :: cs).all isSchemeChar) = true
      · rw [if_pos hcond]
        rw [splitOnFirst_eq hm]
        exact List.Sublist.trans (List.sublist_cons_self ':' post)
          (List.sublist_append_right _ _)
      · rw [if_neg hcond]

theorem splitNetloc_fst_sublist (u : List Char) : (splitNetloc u).1.Sublist u := by
  unfold splitNetloc
  split
  · exact List.Sublist.trans (List.takeWhile_sublist _)
      (List.Sublist.trans (List.sublist_cons_self _ _) (List.sublist_cons_self _ _))
  · exact List.nil_sublist u

theorem mem_preprocess {c : Char} {l : List Char} (h : c ∈ preprocess l) : c ∈ l := by
  unfold preprocess at h
  exact (List.dropWhile_sublist _).subset (List.mem_of_mem_filter h)

theorem urlsplit_isSome {u : List Char} (h1 : '[' ∉ u) (h2 : ']' ∉ u) :
    ∃ s, urlsplit u = some s := by
  have hn : ∀ c ∈ (splitNetloc (splitScheme (preprocess u)).2).1, c ∈ u := by
    intro c hc
    exact mem_preprocess
      ((splitScheme_snd_sublist _).subset ((splitNetloc_fst_sublist _).subset hc))
  have hb1 : '[' ∉ (splitNetloc (splitScheme (preprocess u)).2).1 :=
    fun hc => h1 (hn _ hc)
  have hb2 : ']' ∉ (splitNetloc (splitScheme (preprocess u)).2).1 :=
    fun hc => h2 (hn _ hc)
  have hb : bracketMismatch (splitNetloc (splitScheme (preprocess u)).2).1 = false := by
    simp [bracketMismatch, hb1, hb2]
  rw [urlsplit, if_neg (by simp [hb])]
  exact ⟨_, rfl⟩

theorem urlparse_isSome {u : List Char} (h : ∃ s, urlsplit u = some s) :
    ∃ p, urlparse u = some p := by
  obtain ⟨s, hs⟩ := h
  unfold urlparse
  rw [hs]
  dsimp only
  by_cases hc : s.scheme ∈ uses_params ∧ ';' ∈ s.path
  · rw [if_pos hc]
    exact ⟨_, rfl⟩
  · rw [if_neg hc]
    exact ⟨_, rfl⟩

theorem normalize_link_ne_empty {l r : String}
    (h : MegaLeiloes.normalize_link l = some r) (hl : l ≠ "") : r ≠ "" := by
  unfold MegaLeiloes.normalize_link at h
  rw [if_neg hl] at h
  cases hp : urlparse l.data with
  | none => rw [hp] at h; cases h
  | some p =>
    rw [hp] at h
    injection h with h
    subst h
    intro hcon
    have hmem : ':' ∈ rstripSlash (reassemble p) := by
      apply mem_rstripSlash
      · simp [reassemble]
      · decide
    have hnil : rstripSlash (reassemble p) = [] := by
      simpa using congrArg String.data hcon
    rw [hnil] at hmem
    cases hmem

/-! Helper lemmas about the two load loops and the two reconcilers. -/

theorem megaLoadAux_keys :
    ∀ (rows : List MegaLeiloes.MegaRow) (idx : List (String × MegaLeiloes.MegaTracked))
      (k : String), k ∈ pyKeys (MegaLeiloes.loadAux idx rows).1 →
      k ∈ pyKeys idx ∨ ∃ r ∈ rows, ∃ l, r.link = some l ∧ l ≠ "" ∧
        MegaLeiloes.normalize_link l = some k := by
  intro rows
  induction rows with
  | nil =>
    intro idx k hk
    exact Or.inl hk
  | cons r rest ih =>
    intro idx k hk
    cases hl : r.link with
    | none =>
      rw [MegaLeiloes.loadAux, hl] at hk
      rcases ih idx k hk with h | ⟨r0, hr0, l0, h1, h2, h3⟩
      · exact Or.inl h
      · exact Or.inr ⟨r0, List.mem_cons_of_mem _ hr0, l0, h1, h2, h3⟩
    | some l =>
      rw [MegaLeiloes.loadAux, hl] at hk
      dsimp only at hk
      by_cases hle : l = ""
      · rw [if_pos hle] at hk
        rcases ih idx k hk with h | ⟨r0, hr0, l0, h1, h2, h3⟩
        · exact Or.inl h
        · exact Or.inr ⟨r0, List.mem_cons_of_mem _ hr0, l0, h1, h2, h3⟩
      · rw [if_neg hle] at hk
        cases hn : MegaLeiloes.normalize_link l with
        | none =>
          rw [hn] at hk
          exact Or.inl hk
        | some n =>
          rw [hn] at hk
          rcases ih _ k hk with h | ⟨r0, hr0, l0, h1, h2, h3⟩
          · rcases mem_pyKeys_pyInsert h with h | h
            · exact Or.inl h
            · exact Or.inr ⟨r, List.mem_cons_self _ _, l, hl, hle, h ▸ hn⟩
          · exact Or.inr ⟨r0, List.mem_cons_of_mem _ hr0, l0, h1, h2, h3⟩

theorem sodreLoadAux_keys :
    ∀ (rows : List Sodre.SodreRow) (idx : List (String × Sodre.SodreTracked))
      (k : String), k ∈ pyKeys (Sodre.loadAux idx rows) →
      k ∈ pyKeys idx ∨ ∃ r ∈ rows, r.link = some k ∧ k ≠ "" := by
  intro rows
  induction rows with
  | nil =>
    intro idx k hk
    exact Or.inl hk
  | cons r rest ih =>
    intro idx k hk
    cases hl : r.link with
    | none =>
      rw [Sodre.loadAux, hl] at hk
      rcases ih idx k hk with h | ⟨r0, hr0, h1, h2⟩
      · exact Or.inl h
      · exact Or.inr ⟨r0, List.mem_cons_of_mem _ hr0, h1, h2⟩
    | some l =>
      rw [Sodre.loadAux, hl] at hk
      dsimp only at hk
      by_cases hle : l = ""
      · rw [if_pos hle] at hk
        rcases ih idx k hk with h | ⟨r0, hr0, h1, h2⟩
        · exact Or.inl h
        · exact Or.inr ⟨r0, List.mem_cons_of_mem _ hr0, h1, h2⟩
      · rw [if_neg hle] at hk
        rcases ih _ k hk with h | ⟨r0, hr0, h1, h2⟩
        · rcases mem_pyKeys_pyInsert h with h | h
          · exact Or.inl h
          · exact Or.inr ⟨r, List.mem_cons_self _ _, h ▸ hl, h ▸ hle⟩
        · exact Or.inr ⟨r0, List.mem_cons_of_mem _ hr0, h1, h2⟩

theorem process_scraped_data_eq (now : String)
    (db : List (String × MegaLeiloes.MegaTracked)) :
    ∀ items : List MegaLeiloes.ScrapedItem,
      (∀ it ∈ items, (MegaLeiloes.normalize_link it.link).isSome) →
      MegaLeiloes.process_scraped_data now db items =
        some (items.filterMap (MegaLeiloes.megaMatch now db)) := by
  intro items
  induction items with
  | nil => intro _; simp [MegaLeiloes.process_scraped_data]
  | cons it rest ih =>
    intro h
    have hit := h it (List.mem_cons_self _ _)
    cases hn : MegaLeiloes.normalize_link it.link with
    | none => rw [hn] at hit; cases hit
    | some nl =>
      have hrest := ih (fun x hx => h x (List.mem_cons_of_mem _ hx))
      cases hg : pyGet db nl with
      | none =>
        simp only [MegaLeiloes.process_scraped_data, hn, hg, hrest,
          List.filterMap_cons, MegaLeiloes.megaMatch, Option.map]
      | some t =>
        simp only [MegaLeiloes.process_scraped_data, hn, hg, hrest,
          List.filterMap_cons, MegaLeiloes.megaMatch, Option.map]

theorem cross_reference_data_eq (now : String) (api : List (String × Sodre.ApiLot)) :
    ∀ sdb : List (String × Sodre.SodreTracked),
      Sodre.cross_reference_data now api sdb =
        sdb.filterMap (Sodre.sodreMatch now api) := by
  intro sdb
  induction sdb with
  | nil => simp [Sodre.cross_reference_data]
  | cons p rest ih =>
    obtain ⟨link, t⟩ := p
    cases hg : pyGet api link with
    | none =>
      simp only [Sodre.cross_reference_data, hg, ih, List.filterMap_cons,
        Sodre.sodreMatch, Option.map]
    | some lot =>
      simp only [Sodre.cross_reference_data, hg, ih, List.filterMap_cons,
        Sodre.sodreMatch, Option.map]

/-! Claim theorems. -/

/-- C1 (counterexample): the Sodré load keys its tracked-item index by the
RAW stored link, not by its normalized form: a row whose link carries a
UTM query parameter is indexed under the raw link, which differs from what
`normalize_link` would produce, refuting the claim that in every
integration the index keys are the normalized links of the rows. -/
theorem c1_counterexample :
    pyKeys (Sodre.load_database_items
        [⟨some "https://www.sodresantoro.com.br/veiculos/lote/1?utm=x",
          some "veiculos", some "sodre", some "A", some "10", some 100, some 5⟩]) =
      ["https://www.sodresantoro.com.br/veiculos/lote/1?utm=x"] ∧
    MegaLeiloes.normalize_link "https://www.sodresantoro.com.br/veiculos/lote/1?utm=x" =
      some "https://www.sodresantoro.com.br/veiculos/lote/1" ∧
    ("https://www.sodresantoro.com.br/veiculos/lote/1?utm=x" : String) ≠
      "https://www.sodresantoro.com.br/veiculos/lote/1" := by
  refine ⟨by decide, by decide, by decide⟩

/-- C1 (amended): in the MegaLeilões integration every key of the index
built by the load operation is `normalize_link` of some row's present,
non-empty link; in the Sodré integration every key is the RAW stored link
of some row (no normalization is applied there, so raw-link equality, not
normalization, is Sodré's matching mechanism). -/
theorem c1_index_keys (mrows : List MegaLeiloes.MegaRow)
    (srows : List Sodre.SodreRow) :
    (∀ k ∈ pyKeys (MegaLeiloes.load_database_items mrows).1,
      ∃ r ∈ mrows, ∃ l, r.link = some l ∧ l ≠ "" ∧
        MegaLeiloes.normalize_link l = some k) ∧
    (∀ k ∈ pyKeys (Sodre.load_database_items srows),
      ∃ r ∈ srows, r.link = some k) := by
  constructor
  · intro k hk
    rcases megaLoadAux_keys mrows [] k hk with h | h
    · simp [pyKeys] at h
    · exact h
  · intro k hk
    rcases sodreLoadAux_keys srows [] k hk with h | ⟨r, hr, h1, _⟩
    · simp [pyKeys] at h
    · exact ⟨r, hr, h1⟩

/-- C1 witness: instantiation of the amended theorem on a one-row load. -/
theorem c1_witness :
    ∃ r ∈ [(⟨some "https://www.megaleiloes.com.br/veiculos/x?utm=1", some "veiculos",
        some "megaleiloes", some "M1", some "7"⟩ : MegaLeiloes.MegaRow)],
      ∃ l, r.link = some l ∧ l ≠ "" ∧
        MegaLeiloes.normalize_link l = some "https://www.megaleiloes.com.br/veiculos/x" :=
  (c1_index_keys [⟨some "https://www.megaleiloes.com.br/veiculos/x?utm=1", some "veiculos",
      some "megaleiloes", some "M1", some "7"⟩] []).1
    "https://www.megaleiloes.com.br/veiculos/x" (by decide)

/-- C2 (counterexample): two URLs differing only in a single trailing
slash can normalize differently: when the last path segment contains a
semicolon, `urlparse` strips the `;params` suffix only in the absence of
a trailing slash, so `normalize_link` maps `http://x.com/a;b` and
`http://x.com/a;b/` to different outputs, refuting the universally
quantified identical-output claim. -/
theorem c2_counterexample :
    MegaLeiloes.normalize_link "http://x.com/a;b" = some "http://x.com/a" ∧
    MegaLeiloes.normalize_link "http://x.com/a;b/" = some "http://x.com/a;b" ∧
    (some "http://x.com/a" : Option String) ≠ some "http://x.com/a;b" := by
  refine ⟨by decide, by decide, by decide⟩

/-- C2 (amended): `normalize_link` is a pure function of the parsed
scheme, host and (parameter-stripped) path: whenever two non-empty URLs
parse to the same scheme and netloc and to paths that are equal or differ
by exactly one trailing slash — in particular when they differ only in
query string or fragment — their normalizations coincide. (Two raw URLs
differing only in a trailing slash may still normalize differently when
the last path segment contains a semicolon, since the parsed paths then
differ by more than a trailing slash.) -/
theorem c2_normalize_equiv (u1 u2 : String) (p1 p2 : ParseResult)
    (h1 : u1 ≠ "") (h2 : u2 ≠ "")
    (hp1 : urlparse u1.data = some p1) (hp2 : urlparse u2.data = some p2)
    (hs : p1.scheme = p2.scheme) (hn : p1.netloc = p2.netloc)
    (hpath : p1.path = p2.path ∨ p1.path = p2.path ++ ['/'] ∨
      p2.path = p1.path ++ ['/']) :
    MegaLeiloes.normalize_link u1 = MegaLeiloes.normalize_link u2 := by
  unfold MegaLeiloes.normalize_link
  rw [if_neg h1, if_neg h2, hp1, hp2]
  dsimp only
  have key : rstripSlash (reassemble p1) = rstripSlash (reassemble p2) := by
    unfold reassemble
    rw [hs, hn]
    rcases hpath with h | h | h
    · rw [h]
    · rw [h]
      rw [show p2.scheme ++ ':' :: '/' :: '/' :: (p2.netloc ++ (p2.path ++ ['/'])) =
          (p2.scheme ++ ':' :: '/' :: '/' :: (p2.netloc ++ p2.path)) ++ ['/'] by simp]
      rw [rstripSlash_append_slash]
    · rw [h]
      rw [show p2.scheme ++ ':' :: '/' :: '/' :: (p2.netloc ++ (p1.path ++ ['/'])) =
          (p2.scheme ++ ':' :: '/' :: '/' :: (p2.netloc ++ p1.path)) ++ ['/'] by simp]
      rw [rstripSlash_append_slash]
  rw [key]

/-- C2 witness: the amended theorem applied to the spec's own example
pair, plus the concrete output value. -/
theorem c2_witness :
    MegaLeiloes.normalize_link "https://x.com/a/b?utm_source=x" =
      MegaLeiloes.normalize_link "https://x.com/a/b/" ∧
    MegaLeiloes.normalize_link "https://x.com/a/b/" = some "https://x.com/a/b" := by
  constructor
  · exact c2_normalize_equiv "https://x.com/a/b?utm_source=x" "https://x.com/a/b/"
      ⟨"https".data, "x.com".data, "/a/b".data, [], "utm_source=x".data, []⟩
      ⟨"https".data, "x.com".data, "/a/b/".data, [], [], []⟩
      (by decide) (by decide) (by decide) (by decide) rfl rfl
      (Or.inr (Or.inr (by decide)))
  · decide

/-- C3 (counterexample): on a path ending in two slashes the code strips
ALL of them (`str.rstrip('/')`), not exactly one: the claim would require
the output `https://x.com/a/` but the code yields `https://x.com/a`. -/
theorem c3_counterexample :
    MegaLeiloes.normalize_link "https://x.com/a//" = some "https://x.com/a" ∧
    ("https://x.com/a" : String) ≠ "https://x.com/a/" := by
  refine ⟨by decide, by decide⟩

/-- C3 (amended): for every non-empty URL that `urlparse` accepts,
`normalize_link` drops the query, fragment and `;params`, reassembles
scheme, host and path as `scheme://host/path`, and strips ALL trailing
path separators (so the result is invariant under further stripping). -/
theorem c3_normalize_reassembly (l : String) (p : ParseResult)
    (hl : l ≠ "") (hp : urlparse l.data = some p) :
    MegaLeiloes.normalize_link l = some (String.mk (rstripSlash (reassemble p))) ∧
    rstripSlash (rstripSlash (reassemble p)) = rstripSlash (reassemble p) := by
  constructor
  · unfold MegaLeiloes.normalize_link
    rw [if_neg hl, hp]
  · exact rstripSlash_idem _

/-- C3 witness: instantiation of the amended theorem on the double-slash
input. -/
theorem c3_witness :
    MegaLeiloes.normalize_link "https://x.com/a//" =
      some (String.mk (rstripSlash (reassemble
        (⟨"https".data, "x.com".data, "/a//".data, [], [], []⟩ : ParseResult)))) :=
  (c3_normalize_reassembly "https://x.com/a//"
    ⟨"https".data, "x.com".data, "/a//".data, [], [], []⟩ (by decide) (by decide)).1

/-- C4 (counterexample): `normalize_link` is not total: on the unparsable
input `http://[` the underlying `urlparse` raises
`ValueError("Invalid IPv6 URL")` (modelled by `none`), so the function
neither returns without error nor yields the empty string. -/
theorem c4_counterexample :
    MegaLeiloes.normalize_link "http://[" = none ∧
    (none : Option String) ≠ some "" := by
  refine ⟨by decide, by decide⟩

/-- C4 (amended): `normalize_link` returns without error on every input
containing no square bracket (the `ValueError` can arise only from a
mismatched bracket in the authority), and the empty string (the model of
both `\"\"` and `None`) yields the empty string. -/
theorem c4_normalize_total (l : String) (h1 : '[' ∉ l.data) (h2 : ']' ∉ l.data) :
    (∃ r, MegaLeiloes.normalize_link l = some r) ∧
    MegaLeiloes.normalize_link "" = some "" := by
  constructor
  · by_cases hl : l = ""
    · subst hl
      exact ⟨"", by decide⟩
    · unfold MegaLeiloes.normalize_link
      rw [if_neg hl]
      obtain ⟨p, hp⟩ := urlparse_isSome (urlsplit_isSome h1 h2)
      rw [hp]
      exact ⟨_, rfl⟩
  · decide

/-- C4 witness: instantiation of the amended theorem on a bracket-free
link. -/
theorem c4_witness :
    ('[' ∉ "https://x.com/a".data) ∧ (']' ∉ "https://x.com/a".data) ∧
    (∃ r, MegaLeiloes.normalize_link "https://x.com/a" = some r) :=
  ⟨by decide, by decide,
    (c4_normalize_total "https://x.com/a" (by decide) (by decide)).1⟩

/-- C5: the hot classification holds exactly when the absolute value
increase reaches the currency threshold (1000) or the percentage increase
reaches the percent threshold (20); in particular `priorValue = 5000`,
`currentValue = 6500` gives `valueDelta = 1500` and
`valueIncreasePct = 30`, hot by both rules. (Neither integration in the
source provides bid counts, so the claim's conditional bid-count rule is
vacuous; no count threshold exists in the code.) -/
theorem c5_hot_rules :
    (∀ prev curr : ℚ, Sodre.is_hot prev curr = true ↔
      Sodre.bid_increase prev curr ≥ Sodre.HOT_ITEM_THRESHOLD_VALUE ∨
      Sodre.bid_increase_pct prev curr ≥ Sodre.HOT_ITEM_THRESHOLD_PERCENT) ∧
    Sodre.bid_increase 5000 6500 = 1500 ∧
    Sodre.bid_increase_pct 5000 6500 = 30 ∧
    Sodre.bid_increase 5000 6500 ≥ Sodre.HOT_ITEM_THRESHOLD_VALUE ∧
    Sodre.bid_increase_pct 5000 6500 ≥ Sodre.HOT_ITEM_THRESHOLD_PERCENT ∧
    Sodre.is_hot 5000 6500 = true := by
  refine ⟨?_,
    by norm_num [Sodre.bid_increase],
    by norm_num [Sodre.bid_increase_pct, Sodre.bid_increase],
    by norm_num [Sodre.bid_increase, Sodre.HOT_ITEM_THRESHOLD_VALUE],
    by norm_num [Sodre.bid_increase_pct, Sodre.bid_increase,
      Sodre.HOT_ITEM_THRESHOLD_PERCENT],
    by norm_num [Sodre.is_hot, Sodre.bid_increase, Sodre.bid_increase_pct,
      Sodre.HOT_ITEM_THRESHOLD_VALUE, Sodre.HOT_ITEM_THRESHOLD_PERCENT]⟩
  intro prev curr
  simp [Sodre.is_hot, Bool.or_eq_true, decide_eq_true_eq]

/-- C5 witness: the general rule applied at a concrete hot input. -/
theorem c5_witness : Sodre.is_hot 100 1200 = true :=
  (c5_hot_rules.1 100 1200).mpr
    (Or.inl (by norm_num [Sodre.bid_increase, Sodre.HOT_ITEM_THRESHOLD_VALUE]))

/-- C6: with a zero prior value the percentage increase is defined to be 0
(the division is guarded), the percentage rule can never fire, and the
record is hot exactly when the absolute increase reaches the currency
threshold; in particular `priorValue = 0`, `currentValue = 500` has
percentage 0 and is not hot under the default thresholds. -/
theorem c6_zero_baseline :
    (∀ curr : ℚ, Sodre.bid_increase_pct 0 curr = 0 ∧
      ¬ Sodre.bid_increase_pct 0 curr ≥ Sodre.HOT_ITEM_THRESHOLD_PERCENT ∧
      (Sodre.is_hot 0 curr = true ↔
        Sodre.bid_increase 0 curr ≥ Sodre.HOT_ITEM_THRESHOLD_VALUE)) ∧
    Sodre.bid_increase_pct 0 500 = 0 ∧
    Sodre.is_hot 0 500 = false := by
  refine ⟨?_, by norm_num [Sodre.bid_increase_pct], ?_⟩
  case refine_2 =>
    simp only [Sodre.is_hot, Sodre.bid_increase, Sodre.bid_increase_pct,
      Sodre.HOT_ITEM_THRESHOLD_VALUE, Sodre.HOT_ITEM_THRESHOLD_PERCENT]
    norm_num
  intro curr
  have hpct : Sodre.bid_increase_pct 0 curr = 0 := by
    simp [Sodre.bid_increase_pct]
  refine ⟨hpct, ?_, ?_⟩
  · rw [hpct]
    norm_num [Sodre.HOT_ITEM_THRESHOLD_PERCENT]
  · simp only [Sodre.is_hot, hpct, Bool.or_eq_true, decide_eq_true_eq]
    rw [or_iff_left (by norm_num [Sodre.HOT_ITEM_THRESHOLD_PERCENT] :
      ¬ (0 : ℚ) ≥ Sodre.HOT_ITEM_THRESHOLD_PERCENT)]

/-- C6 witness: the general statement applied at a concrete current
value. -/
theorem c6_witness :
    ¬ Sodre.bid_increase_pct 0 777 ≥ Sodre.HOT_ITEM_THRESHOLD_PERCENT :=
  (c6_zero_baseline.1 777).2.1

/-- C7 (counterexample): the Sodré reconciler iterates the tracked-item
index, not the observations, so the output ordering follows the index
order: with the index holding lots A then B and the captured observations
holding B then A, the merged output is A then B, refuting the claim that
output ordering follows the input observation order. -/
theorem c7_counterexample :
    (Sodre.cross_reference_data "2025-01-01T00:00:00"
        [("https://www.sodresantoro.com.br/veiculos/lote/2",
            (⟨some 200, some true, some 2⟩ : Sodre.ApiLot)),
          ("https://www.sodresantoro.com.br/veiculos/lote/1",
            (⟨some 100, some false, some 1⟩ : Sodre.ApiLot))]
        [("https://www.sodresantoro.com.br/veiculos/lote/1",
            (⟨some "veiculos", some "sodre", some "A", some "1", 0, 0⟩ :
              Sodre.SodreTracked)),
          ("https://www.sodresantoro.com.br/veiculos/lote/2",
            (⟨some "veiculos", some "sodre", some "B", some "2", 0, 0⟩ :
              Sodre.SodreTracked))]).map (fun r => r.external_id) =
      [some "A", some "B"] ∧
    ([some "A", some "B"] : List (Option String)) ≠ [some "B", some "A"] := by
  refine ⟨by decide, by decide⟩

/-- C7 (amended): the MegaLeilões reconciler is exactly an
order-preserving filter-map over the observations — an observation whose
normalized link is absent from the index contributes nothing, each
matched observation yields exactly one record with identity fields from
the tracked item and value fields from the observation, and output order
follows observation order; the Sodré reconciler is the analogous
filter-map over the tracked-item index, so its output order follows index
order instead. -/
theorem c7_reconcile (now : String) (db : List (String × MegaLeiloes.MegaTracked))
    (items : List MegaLeiloes.ScrapedItem)
    (hparse : ∀ it ∈ items, (MegaLeiloes.normalize_link it.link).isSome) :
    MegaLeiloes.process_scraped_data now db items =
      some (items.filterMap (MegaLeiloes.megaMatch now db)) ∧
    ∀ (api : List (String × Sodre.ApiLot)) (sdb : List (String × Sodre.SodreTracked)),
      Sodre.cross_reference_data now api sdb =
        sdb.filterMap (Sodre.sodreMatch now api) :=
  ⟨process_scraped_data_eq now db items hparse,
    fun api sdb => cross_reference_data_eq now api sdb⟩

/-- C7 witness: the amended theorem applied to a two-observation run in
which the second observation is unmatched and silently dropped. -/
theorem c7_witness :
    MegaLeiloes.process_scraped_data "2025-01-01T00:00:00"
        [("https://site.com/a",
          (⟨some "veiculos", some "megaleiloes", some "1", some "7"⟩ :
            MegaLeiloes.MegaTracked))]
        [⟨"https://site.com/a?utm=1", some "1", 150, true⟩,
          ⟨"https://site.com/zzz", none, 1, false⟩] =
      some ([(⟨"https://site.com/a?utm=1", some "1", 150, true⟩ :
            MegaLeiloes.ScrapedItem),
          ⟨"https://site.com/zzz", none, 1, false⟩].filterMap
        (MegaLeiloes.megaMatch "2025-01-01T00:00:00"
          [("https://site.com/a", ⟨some "veiculos", some "megaleiloes", some "1",
            some "7"⟩)])) :=
  (c7_reconcile "2025-01-01T00:00:00"
    [("https://site.com/a", ⟨some "veiculos", some "megaleiloes", some "1", some "7"⟩)]
    [⟨"https://site.com/a?utm=1", some "1", 150, true⟩,
      ⟨"https://site.com/zzz", none, 1, false⟩] (by decide)).1

/-- C8: the dedup of `save_bid_history` keys records by
(category, source, externalId, capturedAt truncated to 19 characters);
exactly one record survives per key and it is the last one seen in
iteration order, every input key is represented, and feeding the same
record twice yields the same deduplicated batch — hence the same
persisted count — as feeding it once, in both monitors. -/
theorem c8_dedup :
    (∀ (l : List MegaLeiloes.MegaRecord) (r : MegaLeiloes.MegaRecord),
      r ∈ dedupRecords MegaLeiloes.dedup_key l →
      lastWithKey MegaLeiloes.dedup_key (MegaLeiloes.dedup_key r) l = some r) ∧
    (∀ l : List MegaLeiloes.MegaRecord,
      ((dedupRecords MegaLeiloes.dedup_key l).map MegaLeiloes.dedup_key).Nodup) ∧
    (∀ (l : List MegaLeiloes.MegaRecord) (x : MegaLeiloes.MegaRecord), x ∈ l →
      ∃ y ∈ dedupRecords MegaLeiloes.dedup_key l,
        MegaLeiloes.dedup_key y = MegaLeiloes.dedup_key x) ∧
    (∀ (l : List MegaLeiloes.MegaRecord) (r : MegaLeiloes.MegaRecord),
      dedupRecords MegaLeiloes.dedup_key (r :: r :: l) =
        dedupRecords MegaLeiloes.dedup_key (r :: l)) ∧
    (∀ (upsert : List MegaLeiloes.MegaRecord → Except Unit Nat)
      (l : List MegaLeiloes.MegaRecord) (r : MegaLeiloes.MegaRecord),
      MegaLeiloes.save_bid_history upsert (r :: r :: l) =
        MegaLeiloes.save_bid_history upsert (r :: l)) ∧
    (∀ (l : List Sodre.SodreClean) (r : Sodre.SodreClean),
      dedupRecords Sodre.dedup_key (r :: r :: l) =
        dedupRecords Sodre.dedup_key (r :: l)) ∧
    (∀ (upsert : List Sodre.SodreClean → Except Unit Nat)
      (l : List Sodre.SodreRecord) (r : Sodre.SodreRecord),
      Sodre.save_bid_history upsert (r :: r :: l) =
        Sodre.save_bid_history upsert (r :: l)) := by
  refine ⟨?_, ?_, ?_, ?_, ?_, ?_, ?_⟩
  · intro l r hr
    exact mem_dedupRecords_last MegaLeiloes.dedup_key hr
  · intro l
    exact dedupRecords_keys_nodup MegaLeiloes.dedup_key l
  · intro l x hx
    exact dedupRecords_covers MegaLeiloes.dedup_key hx
  · intro l r
    exact dedupRecords_idem MegaLeiloes.dedup_key r l
  · intro upsert l r
    simp [MegaLeiloes.save_bid_history, dedupRecords_idem]
  · intro l r
    exact dedupRecords_idem Sodre.dedup_key r l
  · intro upsert l r
    simp [Sodre.save_bid_history, dedupRecords_idem]

/-- C8 witness: last-wins applied to a singleton batch. -/
theorem c8_witness :
    lastWithKey MegaLeiloes.dedup_key
        (MegaLeiloes.dedup_key (⟨some "veiculos", some "megaleiloes", some "1", some "7",
          true, 150, "2025-01-01T00:00:00.123456"⟩ : MegaLeiloes.MegaRecord))
        [⟨some "veiculos", some "megaleiloes", some "1", some "7", true, 150,
          "2025-01-01T00:00:00.123456"⟩] =
      some ⟨some "veiculos", some "megaleiloes", some "1", some "7", true, 150,
        "2025-01-01T00:00:00.123456"⟩ :=
  c8_dedup.1
    [⟨some "veiculos", some "megaleiloes", some "1", some "7", true, 150,
      "2025-01-01T00:00:00.123456"⟩]
    ⟨some "veiculos", some "megaleiloes", some "1", some "7", true, 150,
      "2025-01-01T00:00:00.123456"⟩ (by decide)

/-- C9: a failing history-upsert transport makes `save_bid_history`
return 0 (the whole batch fails) without raising, in both monitors; and
the two persistence stages are independent — the base-table update count
does not depend on the history transport and the history count does not
depend on the base-table transport. -/
theorem c9_failure_domains :
    (∀ (upsert : List MegaLeiloes.MegaRecord → Except Unit Nat)
      (records : List MegaLeiloes.MegaRecord),
      (∀ x, upsert x = Except.error ()) →
      MegaLeiloes.save_bid_history upsert records = 0) ∧
    (∀ (upsert : List Sodre.SodreClean → Except Unit Nat)
      (records : List Sodre.SodreRecord),
      (∀ x, upsert x = Except.error ()) →
      Sodre.save_bid_history upsert records = 0) ∧
    (∀ (upd : MegaLeiloes.MegaRecord → Bool)
      (upsert upsert2 : List MegaLeiloes.MegaRecord → Except Unit Nat)
      (records : List MegaLeiloes.MegaRecord),
      (MegaLeiloes.run_persist upd upsert records).1 =
        (MegaLeiloes.run_persist upd upsert2 records).1) ∧
    (∀ (upd upd2 : MegaLeiloes.MegaRecord → Bool)
      (upsert : List MegaLeiloes.MegaRecord → Except Unit Nat)
      (records : List MegaLeiloes.MegaRecord),
      (MegaLeiloes.run_persist upd upsert records).2 =
        (MegaLeiloes.run_persist upd2 upsert records).2) := by
  refine ⟨?_, ?_, ?_, ?_⟩
  · intro upsert records h
    by_cases hrec : records = []
    · simp [MegaLeiloes.save_bid_history, hrec]
    · simp [MegaLeiloes.save_bid_history, hrec, h]
  · intro upsert records h
    by_cases hrec : records = []
    · simp [Sodre.save_bid_history, hrec]
    · simp [Sodre.save_bid_history, hrec, h]
  · intro upd upsert upsert2 records
    rfl
  · intro upd upd2 upsert records
    rfl

/-- C9 witness: a failing transport on a non-empty batch returns 0. -/
theorem c9_witness :
    MegaLeiloes.save_bid_history (fun _ => Except.error ())
      [⟨some "imoveis", some "megaleiloes", some "2", some "8", false, 75,
        "2025-01-01T00:00:01"⟩] = 0 :=
  c9_failure_domains.1 (fun _ => Except.error ())
    [⟨some "imoveis", some "megaleiloes", some "2", some "8", false, 75,
      "2025-01-01T00:00:01"⟩] (fun _ => rfl)

/-- C10: every key of the tracked-item index built by either load
operation is a non-empty string: rows whose link is absent or empty are
skipped, and in MegaLeilões the normalized key of a non-empty link always
retains the colon of the scheme separator, so it is non-empty too. -/
theorem c10_index_keys_nonempty (mrows : List MegaLeiloes.MegaRow)
    (srows : List Sodre.SodreRow) :
    (∀ k ∈ pyKeys (MegaLeiloes.load_database_items mrows).1, k ≠ "") ∧
    (∀ k ∈ pyKeys (Sodre.load_database_items srows), k ≠ "") := by
  constructor
  · intro k hk
    rcases megaLoadAux_keys mrows [] k hk with h | ⟨r, _, l, _, hne, hnorm⟩
    · simp [pyKeys] at h
    · exact normalize_link_ne_empty hnorm hne
  · intro k hk
    rcases sodreLoadAux_keys srows [] k hk with h | ⟨r, _, _, h2⟩
    · simp [pyKeys] at h
    · exact h2

/-- C10 witness: instantiation on a one-row Sodré load. -/
theorem c10_witness :
    "https://www.sodresantoro.com.br/veiculos/lote/9" ∈
      pyKeys (Sodre.load_database_items
        [⟨some "https://www.sodresantoro.com.br/veiculos/lote/9", some "veiculos",
          some "sodre", some "B", some "11", none, none⟩]) ∧
    ("https://www.sodresantoro.com.br/veiculos/lote/9" : String) ≠ "" :=
  ⟨by decide,
    (c10_index_keys_nonempty []
        [⟨some "https://www.sodresantoro.com.br/veiculos/lote/9", some "veiculos",
          some "sodre", some "B", some "11", none, none⟩]).2
      "https://www.sodresantoro.com.br/veiculos/lote/9" (by decide)⟩

end Monitors

